import Mathlib

/-!
Shallow embedding of the RIFT flicker-scheduling code
(files `Code for Gabors/7.py`, `Code for Gabors/7a.py`,
`Code for Gabors/7sineopt.py`, `psychopy scripts/rift2.py`).

Python floats are modelled by exact rationals; colors are lists of
rationals, except on the sine path (which calls `np.sin`) where they are
`Fin 3 → ℝ`.  Python's `fractions.Fraction(x).limit_denominator(1000)` is
ported directly from the CPython algorithm and evaluated on exact `ℚ`.
-/

namespace RIFT

/-- Model of the continued-fraction loop inside Python's
`Fraction.limit_denominator` (CPython `fractions.py`): state
`(p0, q0, p1, q1, n, d)`, iterating `a = n // d`, `q2 = q0 + a*q1`,
breaking as soon as `q2 > max_denominator`.  The fuel argument bounds the
iteration count; `d` strictly decreases (Euclidean division), so fuel equal
to the initial denominator always suffices.  The `d = 0` guard is
unreachable for a reduced input fraction (the loop breaks when the final
convergent denominator, the full denominator itself, exceeds
`max_denominator`). -/
def limit_denominator_loop (max_denominator : ℤ) :
    ℕ → ℤ → ℤ → ℤ → ℤ → ℤ → ℤ → ℤ × ℤ × ℤ × ℤ × ℤ × ℤ
  | 0, p0, q0, p1, q1, n, d => (p0, q0, p1, q1, n, d)
  | fuel + 1, p0, q0, p1, q1, n, d =>
      if d = 0 then (p0, q0, p1, q1, n, d)
      else
        let a := n / d
        let q2 := q0 + a * q1
        if max_denominator < q2 then (p0, q0, p1, q1, n, d)
        else limit_denominator_loop max_denominator fuel p1 q1 (p0 + a * p1) q2 d (n - a * d)

/-- Model of Python `Fraction(x).limit_denominator(max_denominator)`:
return `x` itself when its reduced denominator is already small enough
(CPython's early return), otherwise the closer of the two candidate
approximations `bound1` / `bound2` produced by the continued-fraction
loop, preferring `bound2` on ties, exactly as in CPython. -/
def limit_denominator (x : ℚ) (max_denominator : ℕ) : ℚ :=
  if x.den ≤ max_denominator then x
  else
    match limit_denominator_loop (max_denominator : ℤ) x.den 0 1 1 0 x.num (x.den : ℤ) with
    | (p0, q0, p1, q1, _, _) =>
      let k := ((max_denominator : ℤ) - q0) / q1
      let bound1 : ℚ := ((p0 + k * p1 : ℤ) : ℚ) / ((q0 + k * q1 : ℤ) : ℚ)
      let bound2 : ℚ := (p1 : ℚ) / (q1 : ℚ)
      if |bound2 - x| ≤ |bound1 - x| then bound2 else bound1

/-- Model of `AdaptiveFlickerPattern._generate_pattern` from `7a.py` /
`7sineopt.py` (the two bodies are identical): reduce the fractional part of
the ideal half-cycle length with `limit_denominator 1000`, then emit the
evenly-interleaved list of half-cycle lengths, entry `i` being
`frames_high` iff `(i * num_high) % pattern_length < num_high`. -/
def generate_pattern (ideal_frames_per_half : ℚ) (frames_low frames_high : ℤ) : List ℤ :=
  let fractional_part := ideal_frames_per_half - (frames_low : ℚ)
  let frac := limit_denominator fractional_part 1000
  let pattern_length := frac.den
  let num_high := frac.num
  (List.range pattern_length).map fun i : ℕ =>
    if ((i : ℤ) * num_high) % (pattern_length : ℤ) < num_high then frames_high else frames_low

/-- State computed by `AdaptiveFlickerPattern.__init__` (fields shared by
`7a.py` and `7sineopt.py`; `frames_per_cycle` is the extra field of the
`7sineopt.py` variant, used by the sine path). -/
structure AdaptiveFlickerPattern where
  refresh_rate : ℚ
  flicker_frequency : ℚ
  ideal_frames_per_half : ℚ
  frames_low : ℤ
  frames_high : ℤ
  is_integer : Bool
  pattern : List ℤ
  pattern_length : ℕ
  frames_per_cycle : ℚ
  achieved_frequency : ℚ
  error : ℚ

/-- Model of `AdaptiveFlickerPattern.__init__(refresh_rate,
flicker_frequency)`.  Note that the constructor performs no input
validation whatsoever: any rational arguments produce a pattern object
(with `flicker_frequency = 0` Python would raise `ZeroDivisionError`;
here division by zero yields `0`). -/
def AdaptiveFlickerPattern.make (refresh_rate flicker_frequency : ℚ) : AdaptiveFlickerPattern :=
  let ideal_frames_per_half := refresh_rate / flicker_frequency / 2
  let frames_low : ℤ := ⌊ideal_frames_per_half⌋
  let frames_high : ℤ := ⌈ideal_frames_per_half⌉
  let pattern : List ℤ :=
    if frames_low = frames_high then [frames_low]
    else generate_pattern ideal_frames_per_half frames_low frames_high
  let pattern_length := pattern.length
  let total_frames := pattern.sum * 2
  let frames_per_cycle_actual := (total_frames : ℚ) / (pattern_length : ℚ)
  let achieved_frequency := refresh_rate / frames_per_cycle_actual
  { refresh_rate := refresh_rate
    flicker_frequency := flicker_frequency
    ideal_frames_per_half := ideal_frames_per_half
    frames_low := frames_low
    frames_high := frames_high
    is_integer := decide (frames_low = frames_high)
    pattern := pattern
    pattern_length := pattern_length
    frames_per_cycle := refresh_rate / flicker_frequency
    achieved_frequency := achieved_frequency
    error := achieved_frequency - flicker_frequency }

/-- Half-cycle walking loop shared by `get_color_simple` (`7a.py`) and
`get_color_square` (`7sineopt.py`): step through `pattern_length * 2`
half-cycles, accumulating their lengths, and return the index of the
half-cycle containing `pos`, or `none` when the `for` loop falls through
to the fallback return. -/
def walk_halves (pattern : List ℤ) (pattern_length : ℕ) (pos : ℤ) :
    ℕ → ℕ → ℤ → Option ℕ
  | 0, _, _ => none
  | steps + 1, half_idx, cumulative =>
      let frames_this_half := pattern.getD (half_idx % pattern_length) 0
      if pos < cumulative + frames_this_half then some half_idx
      else
        walk_halves pattern pattern_length pos steps (half_idx + 1)
          (cumulative + frames_this_half)

/-- Model of `AdaptiveFlickerPattern.get_color_simple` from `7a.py`.
When `pattern.sum = 0` Python's `frame_num % 0` raises
`ZeroDivisionError`; here `Int.emod x 0 = x` and the loop then falls
through to the `color_a` fallback, so in either semantics the claim that
the loop always returns from inside fails there. -/
def AdaptiveFlickerPattern.get_color_simple {α : Type}
    (self : AdaptiveFlickerPattern) (frame_num : ℕ) (color_a color_b : α) : α :=
  let pattern_cycle_frames := self.pattern.sum * 2
  let pos_in_cycle := (frame_num : ℤ) % pattern_cycle_frames
  match walk_halves self.pattern self.pattern_length pos_in_cycle
      (self.pattern_length * 2) 0 0 with
  | some half_idx => if half_idx % 2 = 0 then color_a else color_b
  | none => color_a

/-- Model of `AdaptiveFlickerPattern.get_color_square` from `7sineopt.py`
(line for line the same algorithm as `get_color_simple` in `7a.py`). -/
def AdaptiveFlickerPattern.get_color_square {α : Type}
    (self : AdaptiveFlickerPattern) (frame_num : ℕ) (color_a color_b : α) : α :=
  let pattern_cycle_frames := self.pattern.sum * 2
  let pos_in_cycle := (frame_num : ℤ) % pattern_cycle_frames
  match walk_halves self.pattern self.pattern_length pos_in_cycle
      (self.pattern_length * 2) 0 0 with
  | some half_idx => if half_idx % 2 = 0 then color_a else color_b
  | none => color_a

/-- Model of `calculate_color_flicker_frame_based` from `7.py`
(lines 248-310): the closed-form integer-modulo square-wave resolver. -/
def calculate_color_flicker_frame_based {α : Type}
    (frame_num : ℕ) (frames_per_half_cycle : ℕ) (color_a color_b : α) : α :=
  let frames_per_full_cycle := frames_per_half_cycle * 2
  let position_in_cycle := frame_num % frames_per_full_cycle
  if position_in_cycle < frames_per_half_cycle then color_a else color_b

/-- Python's float modulo `a % b` for the divisors used here
(result carries the sign of the divisor): `a - b * ⌊a / b⌋`. -/
def pymod (a b : ℚ) : ℚ := a - b * ⌊a / b⌋

/-- Model of `AdaptiveFlickerPattern._get_sine_value` from `7sineopt.py`. -/
noncomputable def AdaptiveFlickerPattern.get_sine_value
    (self : AdaptiveFlickerPattern) (frame_num : ℕ) : ℝ :=
  let cycle_position : ℚ :=
    pymod (frame_num : ℚ) self.frames_per_cycle / self.frames_per_cycle
  Real.sin (2 * Real.pi * (cycle_position : ℝ))

/-- Model of `AdaptiveFlickerPattern._blend_colors` from `7sineopt.py`. -/
noncomputable def blend_colors (color_a color_b : Fin 3 → ℝ) (sine_value : ℝ) : Fin 3 → ℝ :=
  let blend_factor := (sine_value + 1) / 2
  fun i => color_b i * (1 - blend_factor) + color_a i * blend_factor

/-- Model of `AdaptiveFlickerPattern.get_color_sine` from `7sineopt.py`. -/
noncomputable def AdaptiveFlickerPattern.get_color_sine
    (self : AdaptiveFlickerPattern) (frame_num : ℕ)
    (color_a color_b : Fin 3 → ℝ) : Fin 3 → ℝ :=
  blend_colors color_a color_b (self.get_sine_value frame_num)

/-- Model of `desaturate_color` from `7a.py` / `7sineopt.py`. -/
def desaturate_color (color : List ℚ) (saturation : ℚ) (gray_value : ℚ) : List ℚ :=
  color.map fun c => gray_value + (c - gray_value) * saturation

/-- Model of the luminance-scaling list comprehension
`[c * LUMINANCE_MULTIPLIER for c in COLOR]` from `7a.py` / `7sineopt.py`. -/
def luminance_scaled (color : List ℚ) (luminance_multiplier : ℚ) : List ℚ :=
  color.map fun c => c * luminance_multiplier

/-- Channelwise midpoint of two color lists (the fusion color that the
spec's caller invariant refers to). -/
def color_midpoint (color_a color_b : List ℚ) : List ℚ :=
  List.zipWith (fun x y => (x + y) / 2) color_a color_b

/-- Model of `np.diff` on a one-dimensional array. -/
def np_diff (l : List ℚ) : List ℚ := List.zipWith (fun a b => b - a) l l.tail

/-- Model of `np.mean` on a one-dimensional array. -/
def np_mean (l : List ℚ) : ℚ := l.sum / (l.length : ℚ)

/-- End-of-run flicker diagnostic of `7a.py` (lines 410-418):
`actual_flicker_frequency = 1.0 / (2 * mean_switch_interval)`. -/
def actual_flicker_frequency (flicker_switches : List ℚ) : ℚ :=
  1 / (2 * np_mean (np_diff flicker_switches))

/-- End-of-run flicker diagnostic of `rift2.py` (lines 181-193):
`actual_flicker_freq = 1.0 / mean_switch_interval` (no factor 2). -/
def actual_flicker_freq (color_switches : List ℚ) : ℚ :=
  1 / np_mean (np_diff color_switches)

/-! Field-level unfolding lemmas for the constructor. -/

theorem make_ideal (r f : ℚ) :
    (AdaptiveFlickerPattern.make r f).ideal_frames_per_half = r / f / 2 := rfl

theorem make_frames_low (r f : ℚ) :
    (AdaptiveFlickerPattern.make r f).frames_low = ⌊r / f / 2⌋ := rfl

theorem make_frames_high (r f : ℚ) :
    (AdaptiveFlickerPattern.make r f).frames_high = ⌈r / f / 2⌉ := rfl

theorem make_pattern_eq (r f : ℚ) :
    (AdaptiveFlickerPattern.make r f).pattern =
      if ⌊r / f / 2⌋ = ⌈r / f / 2⌉ then [⌊r / f / 2⌋]
      else generate_pattern (r / f / 2) ⌊r / f / 2⌋ ⌈r / f / 2⌉ := rfl

theorem make_pattern_length_eq (r f : ℚ) :
    (AdaptiveFlickerPattern.make r f).pattern_length =
      (AdaptiveFlickerPattern.make r f).pattern.length := rfl

theorem make_frames_per_cycle (r f : ℚ) :
    (AdaptiveFlickerPattern.make r f).frames_per_cycle = r / f := rfl

theorem make_achieved (r f : ℚ) :
    (AdaptiveFlickerPattern.make r f).achieved_frequency =
      r / ((((AdaptiveFlickerPattern.make r f).pattern.sum * 2 : ℤ) : ℚ) /
        (((AdaptiveFlickerPattern.make r f).pattern.length : ℕ) : ℚ)) := rfl

theorem make_error (r f : ℚ) :
    (AdaptiveFlickerPattern.make r f).error =
      (AdaptiveFlickerPattern.make r f).achieved_frequency - f := rfl

/-! Basic facts about floors, ceilings and reduced fractions used to
characterize the constructed pattern. -/

theorem ceil_eq_floor_add_one_of_ne (x : ℚ) (hx : x ≠ (⌊x⌋ : ℚ)) : ⌈x⌉ = ⌊x⌋ + 1 := by
  have h1 : ⌈x⌉ ≤ ⌊x⌋ + 1 := by
    apply Int.ceil_le.mpr
    push_cast
    exact (Int.lt_floor_add_one x).le
  have h2 : ⌊x⌋ ≤ ⌈x⌉ := Int.floor_le_ceil x
  rcases eq_or_lt_of_le h2 with h | h
  · exfalso
    apply hx
    have hge : x ≤ (⌊x⌋ : ℚ) := by
      have := Int.le_ceil x
      rw [← h] at this
      exact this
    exact le_antisymm hge (Int.floor_le x)
  · omega

theorem num_den_of_coprime (p q : ℕ) (hq : 0 < q) (hco : Nat.Coprime p q) :
    ((p : ℚ) / (q : ℚ)).num = p ∧ ((p : ℚ) / (q : ℚ)).den = q := by
  have h : ((p : ℚ) / (q : ℚ)) = Rat.mk' (p : ℤ) q hq.ne' (by simpa using hco) := by
    rw [Rat.mk'_eq_divInt, Rat.divInt_eq_div]
    norm_num
  rw [h]
  exact ⟨rfl, rfl⟩

theorem floor_ceil_int_add_div (m : ℤ) (p q : ℕ) (hp : 0 < p) (hpq : p < q) :
    ⌊(m : ℚ) + (p : ℚ) / (q : ℚ)⌋ = m ∧ ⌈(m : ℚ) + (p : ℚ) / (q : ℚ)⌉ = m + 1 := by
  have hq : (0 : ℚ) < (q : ℚ) := by exact_mod_cast hp.trans hpq
  have h0 : (0 : ℚ) < (p : ℚ) / (q : ℚ) := div_pos (by exact_mod_cast hp) hq
  have h1 : (p : ℚ) / (q : ℚ) < 1 := (div_lt_one hq).mpr (by exact_mod_cast hpq)
  have hfl : ⌊(m : ℚ) + (p : ℚ) / (q : ℚ)⌋ = m := by
    rw [Int.floor_int_add]
    have : ⌊(p : ℚ) / (q : ℚ)⌋ = 0 := Int.floor_eq_iff.mpr (by constructor <;> push_cast <;> linarith)
    omega
  refine ⟨hfl, ?_⟩
  have hne : (m : ℚ) + (p : ℚ) / (q : ℚ) ≠ ((⌊(m : ℚ) + (p : ℚ) / (q : ℚ)⌋ : ℤ) : ℚ) := by
    rw [hfl]
    intro hcontra
    have : (p : ℚ) / (q : ℚ) = 0 := by linarith [hcontra]
    exact absurd this h0.ne'
  rw [ceil_eq_floor_add_one_of_ne _ hne, hfl]

/-- Characterization of the constructor when the ideal half-cycle count is
an exact integer: the pattern is the single-element list. -/
theorem make_pattern_of_int (r f : ℚ) (k : ℤ) (hx : r / f / 2 = (k : ℚ)) :
    (AdaptiveFlickerPattern.make r f).pattern = [k] ∧
    (AdaptiveFlickerPattern.make r f).frames_low = k ∧
    (AdaptiveFlickerPattern.make r f).frames_high = k ∧
    (AdaptiveFlickerPattern.make r f).pattern_length = 1 := by
  have hfl : ⌊r / f / 2⌋ = k := by rw [hx]; exact Int.floor_intCast k
  have hfc : ⌈r / f / 2⌉ = k := by rw [hx]; exact Int.ceil_intCast k
  have hpat : (AdaptiveFlickerPattern.make r f).pattern = [k] := by
    rw [make_pattern_eq, if_pos (by rw [hfl, hfc]), hfl]
  refine ⟨hpat, by rw [make_frames_low, hfl], by rw [make_frames_high, hfc], ?_⟩
  rw [make_pattern_length_eq, hpat]
  rfl

/-! Stepping lemmas for the half-cycle walking loop. -/

theorem walk_halves_zero (pattern : List ℤ) (L : ℕ) (pos : ℤ) (h : ℕ) (c : ℤ) :
    walk_halves pattern L pos 0 h c = none := rfl

theorem walk_halves_succ (pattern : List ℤ) (L : ℕ) (pos : ℤ) (steps h : ℕ) (c : ℤ) :
    walk_halves pattern L pos (steps + 1) h c =
      if pos < c + pattern.getD (h % L) 0 then some h
      else walk_halves pattern L pos steps (h + 1) (c + pattern.getD (h % L) 0) := rfl

theorem walk_halves_two (pattern : List ℤ) (L : ℕ) (pos : ℤ) :
    walk_halves pattern L pos 2 0 0 =
      if pos < 0 + pattern.getD (0 % L) 0 then some 0
      else if pos < 0 + pattern.getD (0 % L) 0 + pattern.getD (1 % L) 0 then some 1
      else none := rfl

/-- Behavior of the square-wave resolver on a single-element pattern:
plain integer modulo arithmetic. -/
theorem get_color_simple_single {α : Type} (P : AdaptiveFlickerPattern) (k : ℤ)
    (hp : P.pattern = [k]) (hL : P.pattern_length = 1) (hk : 1 ≤ k)
    (n : ℕ) (a b : α) :
    P.get_color_simple n a b = if (n : ℤ) % (2 * k) < k then a else b := by
  have hposlt : (n : ℤ) % (2 * k) < 2 * k := Int.emod_lt_of_pos _ (by omega)
  simp only [AdaptiveFlickerPattern.get_color_simple, hp, hL, List.sum_cons,
    List.sum_nil, add_zero]
  rw [show k * 2 = 2 * k by ring, show (1 * 2 : ℕ) = 2 from rfl, walk_halves_two]
  simp only [Nat.zero_mod, Nat.mod_self, List.getD_cons_zero, zero_add]
  split_ifs with h1 h2
  · rfl
  · rfl
  · exfalso; omega

/-- C1: for refresh-rate / frequency pairs with an integer number `k` of
frames per half-cycle, the SQUARE-mode per-frame resolvers of `7a.py`
(`get_color_simple` on the constructed pattern) and `7.py`
(`calculate_color_flicker_frame_based`) return `color_a` exactly when
`frame_num mod 2k < k`, and `color_b` otherwise, for every frame. -/
theorem square_exact_pattern_correct {α : Type} (r f : ℚ) (k : ℕ) (hk : 1 ≤ k)
    (hx : r / f / 2 = (k : ℚ)) (n : ℕ) (a b : α) :
    (AdaptiveFlickerPattern.make r f).get_color_simple n a b =
      (if n % (2 * k) < k then a else b) ∧
    calculate_color_flicker_frame_based n k a b =
      (if n % (2 * k) < k then a else b) := by
  have hx' : r / f / 2 = ((k : ℤ) : ℚ) := by rw [hx]; norm_num
  obtain ⟨hpat, _, _, hlen⟩ := make_pattern_of_int r f (k : ℤ) hx'
  constructor
  · rw [get_color_simple_single (AdaptiveFlickerPattern.make r f) (k : ℤ) hpat hlen
      (by exact_mod_cast hk) n a b]
    have hmod : ((n % (2 * k) : ℕ) : ℤ) = (n : ℤ) % (2 * (k : ℤ)) := by
      push_cast [Int.natCast_mod]
      ring_nf
    have hcast : ((n : ℤ) % (2 * (k : ℤ)) < (k : ℤ)) ↔ (n % (2 * k) < k) := by
      rw [← hmod]
      exact_mod_cast Iff.rfl
    exact if_congr hcast rfl rfl
  · simp only [calculate_color_flicker_frame_based]
    rw [Nat.mul_comm k 2]

/-- Witness for C1 at the spec scenario refresh 480 Hz, target 60 Hz
(`k = 4`): frame 2 shows `color_a`, frame 5 shows `color_b`. -/
theorem square_exact_pattern_correct_witness :
    (AdaptiveFlickerPattern.make 480 60).get_color_simple 2 (0 : ℤ) 1 = 0 ∧
    (AdaptiveFlickerPattern.make 480 60).get_color_simple 5 (0 : ℤ) 1 = 1 := by
  have h2 := @square_exact_pattern_correct ℤ 480 60 4 (by norm_num) (by norm_num) 2 0 1
  have h5 := @square_exact_pattern_correct ℤ 480 60 4 (by norm_num) (by norm_num) 5 0 1
  rw [h2.1, h5.1]
  norm_num

/-- C5 (amended): when the ideal half-cycle count is exactly an integer
`k`, the constructed pattern is the single-element sequence
`[frames_low]` and per-frame lookup reduces to plain integer modulo
arithmetic. -/
theorem exact_integer_single_pattern {α : Type} (r f : ℚ) (k : ℕ) (hk : 1 ≤ k)
    (hx : r / f / 2 = (k : ℚ)) :
    (AdaptiveFlickerPattern.make r f).pattern =
      [(AdaptiveFlickerPattern.make r f).frames_low] ∧
    ∀ (n : ℕ) (a b : α),
      (AdaptiveFlickerPattern.make r f).get_color_simple n a b =
        (if (n : ℤ) % (2 * (k : ℤ)) < (k : ℤ) then a else b) := by
  have hx' : r / f / 2 = ((k : ℤ) : ℚ) := by rw [hx]; norm_num
  obtain ⟨hpat, hlo, _, hlen⟩ := make_pattern_of_int r f (k : ℤ) hx'
  refine ⟨by rw [hpat, hlo], fun n a b => ?_⟩
  exact get_color_simple_single _ (k : ℤ) hpat hlen (by exact_mod_cast hk) n a b

/-- Witness for C5 at refresh 480 Hz, target 60 Hz: the pattern is the
single half-cycle length list, and frame 6 resolves by modulo to the
second color. -/
theorem exact_integer_single_pattern_witness :
    (AdaptiveFlickerPattern.make 480 60).pattern =
      [(AdaptiveFlickerPattern.make 480 60).frames_low] ∧
    (AdaptiveFlickerPattern.make 480 60).get_color_simple 6 (0 : ℤ) 1 = 1 := by
  have h := @exact_integer_single_pattern ℤ 480 60 4 (by norm_num) (by norm_num)
  refine ⟨h.1, ?_⟩
  rw [h.2 6 0 1]
  norm_num

/-! Counting machinery for the evenly-interleaved (Bresenham) pattern. -/

theorem countP_range_eq_card_filter (q : ℕ) (c : ℕ → Prop) [DecidablePred c] :
    (List.range q).countP (fun i => decide (c i)) = ((Finset.range q).filter c).card := by
  induction q with
  | zero => rfl
  | succ n ih =>
    rw [List.range_succ, List.countP_append, Finset.range_succ, Finset.filter_insert]
    by_cases hc : c n
    · rw [if_pos hc, Finset.card_insert_of_not_mem (by simp)]
      simp [List.countP_cons, hc, ih]
    · rw [if_neg hc]
      simp [List.countP_cons, hc, ih]

/-- Multiplication by a residue coprime to the modulus permutes the
residues, so exactly `p` of the indices `i < q` satisfy
`(i * p) % q < p`. -/
theorem card_mul_mod_lt (p q : ℕ) (hp : 0 < p) (hpq : p < q) (hco : Nat.Coprime p q) :
    ((Finset.range q).filter (fun i => (i * p) % q < p)).card = p := by
  have hq : 0 < q := hp.trans hpq
  haveI : NeZero q := ⟨hq.ne'⟩
  have hu : ((ZMod.unitOfCoprime p hco : (ZMod q)ˣ) : ZMod q) = (p : ZMod q) :=
    ZMod.coe_unitOfCoprime p hco
  have step1 :
      ((Finset.range q).filter (fun i => (i * p) % q < p)).card =
        (Finset.univ.filter (fun x : ZMod q => (x * (p : ZMod q)).val < p)).card := by
    apply Finset.card_nbij (fun i : ℕ => ((i : ℕ) : ZMod q))
    · intro a ha
      simp only [Finset.mem_filter, Finset.mem_range] at ha
      simp only [Finset.mem_filter, Finset.mem_univ, true_and]
      have hcast : ((a : ZMod q) * (p : ZMod q)) = ((a * p : ℕ) : ZMod q) := by push_cast; ring
      rw [hcast, ZMod.val_natCast]
      exact ha.2
    · intro a ha b hb hab
      simp only [Finset.coe_filter, Set.mem_setOf_eq, Finset.mem_range] at ha hb
      have hab' : ((a : ℕ) : ZMod q) = ((b : ℕ) : ZMod q) := hab
      have ha' := ZMod.val_cast_of_lt ha.1
      have hb' := ZMod.val_cast_of_lt hb.1
      rw [← ha', ← hb', hab']
    · intro x hx
      simp only [Finset.coe_filter, Set.mem_setOf_eq, Finset.mem_univ, true_and] at hx
      have hxx : ((x.val : ℕ) : ZMod q) = x := ZMod.natCast_rightInverse x
      refine ⟨x.val, ?_, hxx⟩
      simp only [Finset.mem_coe, Finset.mem_filter, Finset.mem_range]
      refine ⟨ZMod.val_lt x, ?_⟩
      have hcast : ((x.val * p : ℕ) : ZMod q) = x * (p : ZMod q) := by
        push_cast [hxx]
        ring
      have : ((x.val * p : ℕ) : ZMod q).val = (x.val * p) % q := ZMod.val_natCast _
      rw [hcast] at this
      rw [← this]
      exact hx
  have step2 :
      (Finset.univ.filter (fun x : ZMod q => (x * (p : ZMod q)).val < p)).card =
        (Finset.univ.filter (fun y : ZMod q => y.val < p)).card := by
    apply Finset.card_nbij (fun x : ZMod q => x * (p : ZMod q))
    · intro a ha
      simp only [Finset.mem_filter, Finset.mem_univ, true_and] at ha ⊢
      exact ha
    · intro a _ b _ hab
      have := (ZMod.unitOfCoprime p hco).isUnit.mul_left_injective
      rw [← hu] at hab
      exact this hab
    · intro y hy
      simp only [Finset.coe_filter, Set.mem_setOf_eq, Finset.mem_univ, true_and] at hy
      refine ⟨y * ((ZMod.unitOfCoprime p hco)⁻¹ : (ZMod q)ˣ), ?_, ?_⟩
      · simp only [Finset.mem_coe, Finset.mem_filter, Finset.mem_univ, true_and]
        rw [← hu, Units.inv_mul_cancel_right]
        exact hy
      · show y * ((ZMod.unitOfCoprime p hco)⁻¹ : (ZMod q)ˣ) * (p : ZMod q) = y
        rw [← hu, Units.inv_mul_cancel_right]
  have step3 : (Finset.univ.filter (fun y : ZMod q => y.val < p)).card = p := by
    have hcard : (Finset.univ.filter (fun y : ZMod q => y.val < p)).card =
        (Finset.range p).card := by
      apply Finset.card_nbij (fun y : ZMod q => y.val)
      · intro a ha
        simp only [Finset.mem_filter, Finset.mem_univ, true_and] at ha
        simpa using ha
      · intro a _ b _ hab
        exact ZMod.val_injective q hab
      · intro j hj
        simp only [Finset.mem_coe, Finset.mem_range] at hj
        refine ⟨((j : ℕ) : ZMod q), ?_, ZMod.val_cast_of_lt (hj.trans hpq)⟩
        simp only [Finset.mem_coe, Finset.mem_filter, Finset.mem_univ, true_and]
        rw [ZMod.val_cast_of_lt (hj.trans hpq)]
        exact hj
    rw [hcard, Finset.card_range]
  rw [step1, step2, step3]

theorem sum_map_range_eq (q : ℕ) (g : ℕ → ℤ) :
    ((List.range q).map g).sum = ∑ i ∈ Finset.range q, g i := by
  induction q with
  | zero => simp
  | succ n ih =>
    rw [List.range_succ, List.map_append, List.sum_append, Finset.sum_range_succ, ih]
    simp

/-- Characterization of the constructor in the fractional case, provided
the exact fractional part `p / q` is reduced with denominator at most
1000 (so Python's `limit_denominator(1000)` returns it unchanged). -/
theorem make_pattern_of_frac (r f : ℚ) (m : ℤ) (p q : ℕ)
    (hx : r / f / 2 = (m : ℚ) + (p : ℚ) / (q : ℚ))
    (hp : 0 < p) (hpq : p < q) (hco : Nat.Coprime p q) (hq1000 : q ≤ 1000) :
    (AdaptiveFlickerPattern.make r f).frames_low = m ∧
    (AdaptiveFlickerPattern.make r f).frames_high = m + 1 ∧
    (AdaptiveFlickerPattern.make r f).pattern =
      (List.range q).map (fun i : ℕ =>
        if ((i : ℤ) * (p : ℤ)) % (q : ℤ) < (p : ℤ) then m + 1 else m) := by
  obtain ⟨hfl0, hfc0⟩ := floor_ceil_int_add_div m p q hp hpq
  have hfl : ⌊r / f / 2⌋ = m := by rw [hx]; exact hfl0
  have hfc : ⌈r / f / 2⌉ = m + 1 := by rw [hx]; exact hfc0
  have hnum := (num_den_of_coprime p q (hp.trans hpq) hco).1
  have hden := (num_den_of_coprime p q (hp.trans hpq) hco).2
  refine ⟨by rw [make_frames_low, hfl], by rw [make_frames_high, hfc], ?_⟩
  rw [make_pattern_eq, if_neg (by omega), hfl, hfc]
  simp only [generate_pattern]
  have hfrac : r / f / 2 - (m : ℚ) = (p : ℚ) / (q : ℚ) := by rw [hx]; ring
  rw [hfrac]
  simp only [limit_denominator]
  rw [if_pos (by rw [hden]; exact hq1000), hnum, hden]

/-- Translation between the integer-arithmetic form of the interleaving
condition used inside the pattern and its natural-number form. -/
theorem bresenham_cond_iff (p q i : ℕ) :
    (((i : ℤ) * (p : ℤ)) % (q : ℤ) < (p : ℤ)) ↔ ((i * p) % q < p) := by
  have hmod : (((i * p) % q : ℕ) : ℤ) = ((i : ℤ) * (p : ℤ)) % (q : ℤ) := by
    push_cast [Int.natCast_mod]
    ring_nf
  rw [← hmod]
  exact_mod_cast Iff.rfl

/-- C2: in the fractional case with reduced fractional part `p / q`
(denominator at most 1000), the generated pattern has length exactly `q`,
its entry at index `i` equals the ceiling count iff `(i * p) % q < p`,
and consequently exactly `p` entries equal the ceiling count and `q - p`
entries equal the floor count. -/
theorem adaptive_pattern_bresenham (r f : ℚ) (m : ℤ) (p q : ℕ)
    (hx : r / f / 2 = (m : ℚ) + (p : ℚ) / (q : ℚ))
    (hp : 0 < p) (hpq : p < q) (hco : Nat.Coprime p q) (hq1000 : q ≤ 1000) :
    (AdaptiveFlickerPattern.make r f).pattern.length = q ∧
    (∀ i : ℕ, i < q →
      ((AdaptiveFlickerPattern.make r f).pattern.getD i 0 = ⌈r / f / 2⌉ ↔
        (i * p) % q < p)) ∧
    (AdaptiveFlickerPattern.make r f).pattern.count ⌈r / f / 2⌉ = p ∧
    (AdaptiveFlickerPattern.make r f).pattern.count ⌊r / f / 2⌋ = q - p := by
  obtain ⟨hlo, hhi, hpat⟩ := make_pattern_of_frac r f m p q hx hp hpq hco hq1000
  have hfl : ⌊r / f / 2⌋ = m := by rw [← make_frames_low r f]; exact hlo
  have hfc : ⌈r / f / 2⌉ = m + 1 := by rw [← make_frames_high r f]; exact hhi
  have hlen : (AdaptiveFlickerPattern.make r f).pattern.length = q := by
    rw [hpat, List.length_map, List.length_range]
  refine ⟨hlen, ?_, ?_, ?_⟩
  · intro i hi
    rw [hfc, hpat,
      List.getD_eq_getElem _ _ (by rw [List.length_map, List.length_range]; exact hi),
      List.getElem_map, List.getElem_range]
    constructor
    · intro hval
      by_contra hcontra
      rw [if_neg (fun hz => hcontra ((bresenham_cond_iff p q i).mp hz))] at hval
      omega
    · intro hnat
      rw [if_pos ((bresenham_cond_iff p q i).mpr hnat)]
  · rw [hfc, hpat, List.count_eq_countP, List.countP_map]
    have heq : ∀ x ∈ List.range q,
        ((fun y => y == m + 1) ∘ (fun i : ℕ =>
          if ((i : ℤ) * (p : ℤ)) % (q : ℤ) < (p : ℤ) then m + 1 else m)) x = true ↔
        (decide ((x * p) % q < p)) = true := by
      intro x _
      simp only [Function.comp_apply, beq_iff_eq, decide_eq_true_eq]
      constructor
      · intro hval
        by_contra hcontra
        rw [if_neg (fun hz => hcontra ((bresenham_cond_iff p q x).mp hz))] at hval
        omega
      · intro hnat
        rw [if_pos ((bresenham_cond_iff p q x).mpr hnat)]
    rw [List.countP_congr heq, countP_range_eq_card_filter q (fun i => (i * p) % q < p),
      card_mul_mod_lt p q hp hpq hco]
  · rw [hfl, hpat, List.count_eq_countP, List.countP_map]
    have heq : ∀ x ∈ List.range q,
        ((fun y => y == m) ∘ (fun i : ℕ =>
          if ((i : ℤ) * (p : ℤ)) % (q : ℤ) < (p : ℤ) then m + 1 else m)) x = true ↔
        (decide (¬ (x * p) % q < p)) = true := by
      intro x _
      simp only [Function.comp_apply, beq_iff_eq, decide_eq_true_eq]
      constructor
      · intro hval hnat
        rw [if_pos ((bresenham_cond_iff p q x).mpr hnat)] at hval
        omega
      · intro hnat
        rw [if_neg (fun hz => hnat ((bresenham_cond_iff p q x).mp hz))]
    rw [List.countP_congr heq,
      countP_range_eq_card_filter q (fun i => ¬ (i * p) % q < p)]
    have hsplit : ((Finset.range q).filter (fun i => (i * p) % q < p)).card +
        ((Finset.range q).filter (fun i => ¬ (i * p) % q < p)).card = q := by
      rw [Finset.filter_card_add_filter_neg_card_eq_card, Finset.card_range]
    rw [card_mul_mod_lt p q hp hpq hco] at hsplit
    omega

/-- Witness for C2 at refresh 480 Hz, target 64 Hz (`15/4` ideal frames
per half-cycle, fractional part `3/4`): pattern length 4, three entries
equal to 4 and one entry equal to 3. -/
theorem adaptive_pattern_bresenham_witness :
    (AdaptiveFlickerPattern.make 480 64).pattern.length = 4 ∧
    (AdaptiveFlickerPattern.make 480 64).pattern.count 4 = 3 ∧
    (AdaptiveFlickerPattern.make 480 64).pattern.count 3 = 1 := by
  have h := adaptive_pattern_bresenham 480 64 3 3 4 (by norm_num) (by norm_num)
    (by norm_num) (by norm_num) (by norm_num)
  have hfc : ⌈(480 : ℚ) / 64 / 2⌉ = 4 := by
    rw [Int.ceil_eq_iff]
    constructor <;> norm_num
  have hfl : ⌊(480 : ℚ) / 64 / 2⌋ = 3 := by norm_num [Int.floor_eq_iff]
  refine ⟨h.1, ?_, ?_⟩
  · have hc := h.2.2.1
    rw [hfc] at hc
    exact hc
  · have hc := h.2.2.2
    rw [hfl] at hc
    omega

/-- C3: in the fractional case the time-weighted average of the pattern
equals the ideal frames-per-half-cycle exactly, so the recorded achieved
frequency equals the target frequency and the recorded error is zero. -/
theorem adaptive_pattern_drift_free (r f : ℚ) (m : ℤ) (p q : ℕ)
    (hx : r / f / 2 = (m : ℚ) + (p : ℚ) / (q : ℚ))
    (hp : 0 < p) (hpq : p < q) (hco : Nat.Coprime p q) (hq1000 : q ≤ 1000)
    (hr : 0 < r) (hf : 0 < f) :
    ((AdaptiveFlickerPattern.make r f).pattern.sum : ℚ) /
        ((AdaptiveFlickerPattern.make r f).pattern.length : ℚ) = r / f / 2 ∧
    (AdaptiveFlickerPattern.make r f).achieved_frequency = f ∧
    (AdaptiveFlickerPattern.make r f).error = 0 := by
  obtain ⟨hlo, hhi, hpat⟩ := make_pattern_of_frac r f m p q hx hp hpq hco hq1000
  have hq0 : (0 : ℚ) < (q : ℚ) := by exact_mod_cast hp.trans hpq
  have hlen : (AdaptiveFlickerPattern.make r f).pattern.length = q := by
    rw [hpat, List.length_map, List.length_range]
  have hsum : (AdaptiveFlickerPattern.make r f).pattern.sum = (q : ℤ) * m + (p : ℤ) := by
    rw [hpat, sum_map_range_eq]
    have hterm : ∀ i ∈ Finset.range q,
        (if ((i : ℤ) * (p : ℤ)) % (q : ℤ) < (p : ℤ) then m + 1 else m) =
          m + (if ((i : ℤ) * (p : ℤ)) % (q : ℤ) < (p : ℤ) then 1 else 0) := by
      intro i _
      split_ifs <;> ring
    rw [Finset.sum_congr rfl hterm, Finset.sum_add_distrib, Finset.sum_const,
      Finset.card_range, nsmul_eq_mul, Finset.sum_boole]
    have hfc : (Finset.range q).filter
          (fun i : ℕ => ((i : ℤ) * (p : ℤ)) % (q : ℤ) < (p : ℤ)) =
        (Finset.range q).filter (fun i => (i * p) % q < p) :=
      Finset.filter_congr (fun i _ => bresenham_cond_iff p q i)
    rw [hfc, card_mul_mod_lt p q hp hpq hco]
  have havg : ((q : ℚ) * (m : ℚ) + (p : ℚ)) / (q : ℚ) = r / f / 2 := by
    rw [hx]
    field_simp
    ring
  have hcast : (((AdaptiveFlickerPattern.make r f).pattern.sum : ℤ) : ℚ) =
      (q : ℚ) * (m : ℚ) + (p : ℚ) := by
    rw [hsum]
    push_cast
    ring
  have havg' : ((AdaptiveFlickerPattern.make r f).pattern.sum : ℚ) /
      ((AdaptiveFlickerPattern.make r f).pattern.length : ℚ) = r / f / 2 := by
    rw [hlen, hcast, havg]
  have hT : ((((AdaptiveFlickerPattern.make r f).pattern.sum * 2 : ℤ)) : ℚ) /
      (((AdaptiveFlickerPattern.make r f).pattern.length : ℕ) : ℚ) = r / f := by
    rw [hlen, hsum]
    push_cast
    have hstep : (((q : ℚ) * m + p) * 2) / (q : ℚ) = (((q : ℚ) * m + p) / q) * 2 := by
      ring
    rw [hstep]
    have : ((q : ℚ) * (m : ℚ) + (p : ℚ)) / (q : ℚ) = r / f / 2 := havg
    rw [this]
    ring
  have hach : (AdaptiveFlickerPattern.make r f).achieved_frequency = f := by
    rw [make_achieved, hT, div_div_eq_mul_div, mul_comm r f, mul_div_cancel_right₀ f hr.ne']
  exact ⟨havg', hach, by rw [make_error, hach, sub_self]⟩

/-- Witness for C3 at refresh 480 Hz, target 64 Hz: the exact average is
`15/4 = 3.75` and the achieved frequency is exactly 64 Hz with zero
recorded error. -/
theorem adaptive_pattern_drift_free_witness :
    ((AdaptiveFlickerPattern.make 480 64).pattern.sum : ℚ) /
        ((AdaptiveFlickerPattern.make 480 64).pattern.length : ℚ) = 15 / 4 ∧
    (AdaptiveFlickerPattern.make 480 64).achieved_frequency = 64 ∧
    (AdaptiveFlickerPattern.make 480 64).error = 0 := by
  have h := adaptive_pattern_drift_free 480 64 3 3 4 (by norm_num) (by norm_num)
    (by norm_num) (by norm_num) (by norm_num) (by norm_num) (by norm_num)
  refine ⟨?_, h.2.1, h.2.2⟩
  rw [h.1]
  norm_num

/-! Totality of the half-cycle walking loop. -/

theorem sum_getD_range_length (l : List ℤ) :
    ∑ j ∈ Finset.range l.length, l.getD j 0 = l.sum := by
  induction l with
  | nil => simp
  | cons a t ih =>
    rw [List.length_cons, Finset.sum_range_succ', List.sum_cons]
    simp only [List.getD_cons_succ, List.getD_cons_zero]
    rw [ih]
    ring

theorem sum_getD_double (l : List ℤ) :
    ∑ j ∈ Finset.range (l.length * 2), l.getD (j % l.length) 0 = l.sum * 2 := by
  rcases Nat.eq_zero_or_pos l.length with h0 | hL
  · have hnil : l = [] := List.length_eq_zero.mp h0
    subst hnil
    simp
  · have hsplit : l.length * 2 = l.length + l.length := by ring
    rw [hsplit, Finset.range_eq_Ico,
      ← Finset.sum_Ico_consecutive (fun j => l.getD (j % l.length) 0)
        (Nat.zero_le l.length) (Nat.le_add_right l.length l.length)]
    have hfirst : ∑ j ∈ Finset.Ico 0 l.length, l.getD (j % l.length) 0 = l.sum := by
      rw [← Finset.range_eq_Ico]
      have hcong : ∀ j ∈ Finset.range l.length,
          l.getD (j % l.length) 0 = l.getD j 0 := by
        intro j hj
        rw [Nat.mod_eq_of_lt (Finset.mem_range.mp hj)]
      rw [Finset.sum_congr rfl hcong, sum_getD_range_length]
    have hsecond : ∑ j ∈ Finset.Ico l.length (l.length + l.length),
        l.getD (j % l.length) 0 = l.sum := by
      rw [Finset.sum_Ico_eq_sum_range]
      have hcong : ∀ j ∈ Finset.range (l.length + l.length - l.length),
          l.getD ((l.length + j) % l.length) 0 = l.getD (j % l.length) 0 := by
        intro j _
        rw [Nat.add_mod_left]
      rw [Finset.sum_congr rfl hcong]
      have hlen : l.length + l.length - l.length = l.length := by omega
      rw [hlen]
      have hcong2 : ∀ j ∈ Finset.range l.length,
          l.getD (j % l.length) 0 = l.getD j 0 := by
        intro j hj
        rw [Nat.mod_eq_of_lt (Finset.mem_range.mp hj)]
      rw [Finset.sum_congr rfl hcong2, sum_getD_range_length]
    rw [hfirst, hsecond]
    ring

/-- If the walking loop is given a position strictly below the cumulative
total of the half-cycle lengths it is about to walk, it returns from
inside the loop. -/
theorem walk_halves_isSome (pattern : List ℤ) (L : ℕ) (pos : ℤ) :
    ∀ (steps half_idx : ℕ) (c : ℤ), c ≤ pos →
      pos < c + ∑ j ∈ Finset.range steps, pattern.getD ((half_idx + j) % L) 0 →
      (walk_halves pattern L pos steps half_idx c).isSome = true := by
  intro steps
  induction steps with
  | zero =>
    intro h c hc hlt
    simp only [Finset.range_zero, Finset.sum_empty, add_zero] at hlt
    omega
  | succ k ih =>
    intro h c hc hlt
    rw [walk_halves_succ]
    split_ifs with hin
    · rfl
    · push_neg at hin
      apply ih (h + 1) (c + pattern.getD (h % L) 0) hin
      have hsplit : ∑ j ∈ Finset.range (k + 1), pattern.getD ((h + j) % L) 0 =
          pattern.getD (h % L) 0 +
            ∑ j ∈ Finset.range k, pattern.getD ((h + 1 + j) % L) 0 := by
        rw [Finset.sum_range_succ']
        have hcong : ∀ j ∈ Finset.range k,
            pattern.getD ((h + (j + 1)) % L) 0 = pattern.getD ((h + 1 + j) % L) 0 := by
          intro j _
          have harg : h + (j + 1) = h + 1 + j := by omega
          rw [harg]
        rw [Finset.sum_congr rfl hcong]
        have harg0 : h + 0 = h := by omega
        rw [harg0]
        ring
      rw [hsplit] at hlt
      linarith

theorem make_pattern_mem (r f : ℚ) :
    ∀ x ∈ (AdaptiveFlickerPattern.make r f).pattern,
      x = ⌊r / f / 2⌋ ∨ x = ⌈r / f / 2⌉ := by
  intro x hx
  rw [make_pattern_eq] at hx
  by_cases h : ⌊r / f / 2⌋ = ⌈r / f / 2⌉
  · rw [if_pos h] at hx
    simp only [List.mem_singleton] at hx
    left
    exact hx
  · rw [if_neg h] at hx
    simp only [generate_pattern, List.mem_map] at hx
    obtain ⟨i, _, hi⟩ := hx
    split_ifs at hi
    · right
      exact hi.symm
    · left
      exact hi.symm

theorem make_pattern_ne_nil (r f : ℚ) : (AdaptiveFlickerPattern.make r f).pattern ≠ [] := by
  rw [make_pattern_eq]
  by_cases h : ⌊r / f / 2⌋ = ⌈r / f / 2⌉
  · rw [if_pos h]
    simp
  · rw [if_neg h]
    simp only [generate_pattern]
    intro hcontra
    have hlen := congrArg List.length hcontra
    rw [List.length_map, List.length_range, List.length_nil] at hlen
    exact (Rat.den_pos _).ne' hlen

/-- C9 (amended): for a pattern built with positive rates satisfying the
Nyquist bound, the half-cycle sum is at least 1 (so the modulo in the
resolver never divides by zero), the walking loop always returns from
inside (the trailing fallback is unreachable), and the result is always
exactly one of the two endpoint colors, in both `7a.py`'s
`get_color_simple` and `7sineopt.py`'s `get_color_square`. -/
theorem square_walk_total {α : Type} (r f : ℚ) (hr : 0 < r) (hf : 0 < f)
    (hnyq : f ≤ r / 2) :
    1 ≤ (AdaptiveFlickerPattern.make r f).pattern.sum ∧
    ∀ n : ℕ,
      (walk_halves (AdaptiveFlickerPattern.make r f).pattern
          (AdaptiveFlickerPattern.make r f).pattern_length
          ((n : ℤ) % ((AdaptiveFlickerPattern.make r f).pattern.sum * 2))
          ((AdaptiveFlickerPattern.make r f).pattern_length * 2) 0 0).isSome = true ∧
      ∀ a b : α,
        ((AdaptiveFlickerPattern.make r f).get_color_simple n a b = a ∨
          (AdaptiveFlickerPattern.make r f).get_color_simple n a b = b) ∧
        ((AdaptiveFlickerPattern.make r f).get_color_square n a b = a ∨
          (AdaptiveFlickerPattern.make r f).get_color_square n a b = b) := by
  have hideal : (1 : ℚ) ≤ r / f / 2 := by
    rw [div_div, one_le_div (by positivity)]
    linarith [(div_le_iff₀ (by norm_num : (0:ℚ) < 2)).mp (le_refl (r / 2))]
  have hfl1 : 1 ≤ ⌊r / f / 2⌋ := Int.le_floor.mpr (by exact_mod_cast hideal)
  have hmem1 : ∀ x ∈ (AdaptiveFlickerPattern.make r f).pattern, (1 : ℤ) ≤ x := by
    intro x hx
    rcases make_pattern_mem r f x hx with h | h
    · omega
    · have := Int.floor_le_ceil (r / f / 2)
      omega
  obtain ⟨y, hy⟩ := List.exists_mem_of_ne_nil _ (make_pattern_ne_nil r f)
  have hsum1 : 1 ≤ (AdaptiveFlickerPattern.make r f).pattern.sum := by
    have hyle := List.single_le_sum
      (fun x hx => le_trans zero_le_one (hmem1 x hx)) y hy
    have := hmem1 y hy
    omega
  refine ⟨hsum1, fun n => ?_⟩
  have hL : (AdaptiveFlickerPattern.make r f).pattern_length =
      (AdaptiveFlickerPattern.make r f).pattern.length := make_pattern_length_eq r f
  have hpos0 : 0 ≤ (n : ℤ) % ((AdaptiveFlickerPattern.make r f).pattern.sum * 2) :=
    Int.emod_nonneg _ (by omega)
  have hposlt : (n : ℤ) % ((AdaptiveFlickerPattern.make r f).pattern.sum * 2) <
      (AdaptiveFlickerPattern.make r f).pattern.sum * 2 :=
    Int.emod_lt_of_pos _ (by omega)
  have hwalk : (walk_halves (AdaptiveFlickerPattern.make r f).pattern
      (AdaptiveFlickerPattern.make r f).pattern_length
      ((n : ℤ) % ((AdaptiveFlickerPattern.make r f).pattern.sum * 2))
      ((AdaptiveFlickerPattern.make r f).pattern_length * 2) 0 0).isSome = true := by
    apply walk_halves_isSome _ _ _ _ _ _ hpos0
    have hcong : ∀ j ∈ Finset.range ((AdaptiveFlickerPattern.make r f).pattern_length * 2),
        (AdaptiveFlickerPattern.make r f).pattern.getD
            ((0 + j) % (AdaptiveFlickerPattern.make r f).pattern_length) 0 =
          (AdaptiveFlickerPattern.make r f).pattern.getD
            (j % (AdaptiveFlickerPattern.make r f).pattern.length) 0 := by
      intro j _
      rw [Nat.zero_add, hL]
    rw [Finset.sum_congr rfl hcong, hL, sum_getD_double]
    omega
  refine ⟨hwalk, fun a b => ⟨?_, ?_⟩⟩
  · simp only [AdaptiveFlickerPattern.get_color_simple]
    cases walk_halves (AdaptiveFlickerPattern.make r f).pattern
        (AdaptiveFlickerPattern.make r f).pattern_length
        ((n : ℤ) % ((AdaptiveFlickerPattern.make r f).pattern.sum * 2))
        ((AdaptiveFlickerPattern.make r f).pattern_length * 2) 0 0 with
    | none => left; rfl
    | some h =>
      by_cases hpar : h % 2 = 0
      · left; simp [hpar]
      · right; simp [hpar]
  · simp only [AdaptiveFlickerPattern.get_color_square]
    cases walk_halves (AdaptiveFlickerPattern.make r f).pattern
        (AdaptiveFlickerPattern.make r f).pattern_length
        ((n : ℤ) % ((AdaptiveFlickerPattern.make r f).pattern.sum * 2))
        ((AdaptiveFlickerPattern.make r f).pattern_length * 2) 0 0 with
    | none => left; rfl
    | some h =>
      by_cases hpar : h % 2 = 0
      · left; simp [hpar]
      · right; simp [hpar]

/-- Witness for C9 at refresh 480 Hz, target 60 Hz: the half-cycle sum of
the constructed pattern is at least 1. -/
theorem square_walk_total_witness :
    1 ≤ (AdaptiveFlickerPattern.make 480 60).pattern.sum :=
  (@square_walk_total ℤ 480 60 (by norm_num) (by norm_num) (by norm_num)).1

/-- Unfolding of `limit_denominator` on the slow path, given the value of
the continued-fraction loop. -/
theorem limit_denominator_else (x : ℚ) (maxd : ℕ) (p0 q0 p1 q1 n d : ℤ)
    (hden : ¬ x.den ≤ maxd)
    (hloop : limit_denominator_loop (maxd : ℤ) x.den 0 1 1 0 x.num (x.den : ℤ) =
      (p0, q0, p1, q1, n, d)) :
    limit_denominator x maxd =
      if |(p1 : ℚ) / (q1 : ℚ) - x| ≤
          |((p0 + ((maxd : ℤ) - q0) / q1 * p1 : ℤ) : ℚ) /
            ((q0 + ((maxd : ℤ) - q0) / q1 * q1 : ℤ) : ℚ) - x|
      then (p1 : ℚ) / (q1 : ℚ)
      else ((p0 + ((maxd : ℤ) - q0) / q1 * p1 : ℤ) : ℚ) /
          ((q0 + ((maxd : ℤ) - q0) / q1 * q1 : ℤ) : ℚ) := by
  simp only [limit_denominator]
  rw [if_neg hden, hloop]

theorem limit_denominator_of_tiny_fraction :
    limit_denominator (3 / 100000 : ℚ) 1000 = 0 := by
  have hnd := num_den_of_coprime 3 100000 (by norm_num) (by decide)
  have hcast : ((3 : ℕ) : ℚ) / ((100000 : ℕ) : ℚ) = (3 : ℚ) / 100000 := by norm_num
  rw [hcast] at hnd
  have hloop : limit_denominator_loop ((1000 : ℕ) : ℤ) ((3 : ℚ) / 100000).den 0 1 1 0
      ((3 : ℚ) / 100000).num (((3 : ℚ) / 100000).den : ℤ) = (1, 0, 0, 1, 100000, 3) := by
    rw [hnd.1, hnd.2]
    decide
  rw [limit_denominator_else (3 / 100000 : ℚ) 1000 1 0 0 1 100000 3
    (by rw [hnd.2]; norm_num) hloop]
  norm_num [abs_of_nonneg, abs_of_nonpos]

theorem limit_denominator_of_near_thousandth :
    limit_denominator (1 / 1250 : ℚ) 1000 = 1 / 1000 := by
  have hnd := num_den_of_coprime 1 1250 (by norm_num) (by decide)
  have hcast : ((1 : ℕ) : ℚ) / ((1250 : ℕ) : ℚ) = (1 : ℚ) / 1250 := by norm_num
  rw [hcast] at hnd
  have hloop : limit_denominator_loop ((1000 : ℕ) : ℤ) ((1 : ℚ) / 1250).den 0 1 1 0
      ((1 : ℚ) / 1250).num (((1 : ℚ) / 1250).den : ℤ) = (1, 0, 0, 1, 1250, 1) := by
    rw [hnd.1, hnd.2]
    decide
  rw [limit_denominator_else (1 / 1250 : ℚ) 1000 1 0 0 1 1250 1
    (by rw [hnd.2]; norm_num) hloop]
  norm_num [abs_of_nonneg, abs_of_nonpos]

/-- C4 (supporting evaluation): `AdaptiveFlickerPattern.__init__` performs
no validation.  At `refresh_rate = 480`, `flicker_frequency = 300`
(above the Nyquist limit 240) construction succeeds and produces the
five-element adaptive pattern `[1, 0, 1, 1, 1]` instead of failing; at the
Nyquist boundary `flicker_frequency = 240` it produces
`frames_low = frames_high = 1` as the claim states. -/
theorem no_validation_at_construction :
    (AdaptiveFlickerPattern.make 480 300).pattern = [1, 0, 1, 1, 1] ∧
    (AdaptiveFlickerPattern.make 480 240).frames_low = 1 ∧
    (AdaptiveFlickerPattern.make 480 240).frames_high = 1 := by
  have h3 := make_pattern_of_frac 480 300 0 4 5 (by norm_num) (by norm_num) (by norm_num)
    (by decide) (by norm_num)
  have h2 := make_pattern_of_int 480 240 1 (by norm_num)
  refine ⟨?_, h2.2.1, h2.2.2.1⟩
  rw [h3.2.2]
  decide

/-- C5 (counterexample): at `refresh_rate = 5001`, `flicker_frequency =
625` the ideal half-cycle count `4.0008` is within `1e-3` of the integer
4, yet the constructed pattern is a 1000-element adaptive pattern, not the
single-element sequence `[frames_low]`. -/
theorem epsilon_integer_counterexample :
    |(5001 : ℚ) / 625 / 2 - 4| < 1 / 1000 ∧
    (AdaptiveFlickerPattern.make 5001 625).pattern.length = 1000 ∧
    (AdaptiveFlickerPattern.make 5001 625).pattern ≠
      [(AdaptiveFlickerPattern.make 5001 625).frames_low] := by
  have habs : |(5001 : ℚ) / 625 / 2 - 4| < 1 / 1000 := by
    rw [show (5001 : ℚ) / 625 / 2 - 4 = 1 / 1250 by norm_num,
      abs_of_nonneg (by norm_num)]
    norm_num
  have hfl : ⌊(5001 : ℚ) / 625 / 2⌋ = 4 := by norm_num [Int.floor_eq_iff]
  have hfc : ⌈(5001 : ℚ) / 625 / 2⌉ = 5 := by
    rw [Int.ceil_eq_iff]
    constructor <;> norm_num
  have hpat_len : (AdaptiveFlickerPattern.make 5001 625).pattern.length = 1000 := by
    rw [make_pattern_eq, if_neg (by rw [hfl, hfc]; norm_num)]
    simp only [generate_pattern]
    rw [hfl, show (5001 : ℚ) / 625 / 2 - ((4 : ℤ) : ℚ) = 1 / 1250 by push_cast; norm_num,
      limit_denominator_of_near_thousandth, List.length_map, List.length_range]
    have hnd := num_den_of_coprime 1 1000 (by norm_num) (by decide)
    have hcast : ((1 : ℕ) : ℚ) / ((1000 : ℕ) : ℚ) = (1 : ℚ) / 1000 := by norm_num
    rw [hcast] at hnd
    exact hnd.2
  refine ⟨habs, hpat_len, fun hcontra => ?_⟩
  have hlen := congrArg List.length hcontra
  rw [hpat_len] at hlen
  simp at hlen

/-- C9 (counterexample): at `refresh_rate = 60`,
`flicker_frequency = 1000000` the constructor succeeds with pattern `[0]`
whose sum is 0: in Python `frame_num % (2 * sum(pattern))` then raises
`ZeroDivisionError`, and in the model the walking loop falls through to
the fallback return, so the loop does not always return from inside. -/
theorem pattern_sum_zero_counterexample :
    (AdaptiveFlickerPattern.make 60 1000000).pattern = [0] ∧
    (AdaptiveFlickerPattern.make 60 1000000).pattern.sum = 0 ∧
    walk_halves (AdaptiveFlickerPattern.make 60 1000000).pattern
        (AdaptiveFlickerPattern.make 60 1000000).pattern_length
        ((0 : ℤ) % ((AdaptiveFlickerPattern.make 60 1000000).pattern.sum * 2))
        ((AdaptiveFlickerPattern.make 60 1000000).pattern_length * 2) 0 0 = none := by
  have hxval : (60 : ℚ) / 1000000 / 2 = 3 / 100000 := by norm_num
  have hfl : ⌊(60 : ℚ) / 1000000 / 2⌋ = 0 := by
    rw [hxval]
    norm_num [Int.floor_eq_iff]
  have hfc : ⌈(60 : ℚ) / 1000000 / 2⌉ = 1 := by
    rw [hxval, Int.ceil_eq_iff]
    constructor <;> norm_num
  have hpat : (AdaptiveFlickerPattern.make 60 1000000).pattern = [0] := by
    rw [make_pattern_eq, if_neg (by rw [hfl, hfc]; norm_num)]
    simp only [generate_pattern]
    rw [hfl, show (60 : ℚ) / 1000000 / 2 - ((0 : ℤ) : ℚ) = 3 / 100000 by push_cast; norm_num,
      limit_denominator_of_tiny_fraction, hfc, Rat.num_zero, Rat.den_zero]
    decide
  have hL : (AdaptiveFlickerPattern.make 60 1000000).pattern_length = 1 := by
    rw [make_pattern_length_eq, hpat]
    rfl
  have hsum : (AdaptiveFlickerPattern.make 60 1000000).pattern.sum = 0 := by
    rw [hpat]
    rfl
  refine ⟨hpat, hsum, ?_⟩
  rw [hpat, hL]
  decide

/-- C7: the end-of-run diagnostic of `rift2.py` computes the achieved
flicker frequency as `1 / mean_switch_interval`, reporting 10 Hz on the
switch-timestamp list `[0.0, 0.1, 0.2, 0.3]`, while the correct formula
`1 / (2 * mean_switch_interval)` (used by `7a.py` and mandated by the
spec) reports 5 Hz there. -/
theorem diagnostic_frequency_formulas :
    actual_flicker_freq [0, 1 / 10, 2 / 10, 3 / 10] = 10 ∧
    actual_flicker_frequency [0, 1 / 10, 2 / 10, 3 / 10] = 5 := by
  constructor
  · norm_num [actual_flicker_freq, np_mean, np_diff, List.tail_cons,
      List.zipWith_cons_cons, List.zipWith_nil_right]
  · norm_num [actual_flicker_frequency, np_mean, np_diff, List.tail_cons,
      List.zipWith_cons_cons, List.zipWith_nil_right]

/-- C8 (amended): the color post-processing pipeline (luminance scaling
followed by affine desaturation toward a gray point) is affine per
channel, so it commutes with averaging: the processed endpoints average
to the processed midpoint.  The average equals the unprocessed midpoint
when the luminance multiplier is 1 and the unprocessed midpoint equals
the gray point, but not in general. -/
theorem postprocess_commutes_with_midpoint (a b : List ℚ) (lum sat gray : ℚ) :
    color_midpoint (desaturate_color (luminance_scaled a lum) sat gray)
        (desaturate_color (luminance_scaled b lum) sat gray) =
      desaturate_color (luminance_scaled (color_midpoint a b) lum) sat gray ∧
    (lum = 1 → ∀ n : ℕ, color_midpoint a b = List.replicate n gray →
      color_midpoint (desaturate_color (luminance_scaled a lum) sat gray)
          (desaturate_color (luminance_scaled b lum) sat gray) = color_midpoint a b) := by
  have hmain : ∀ u v : List ℚ,
      color_midpoint (desaturate_color (luminance_scaled u lum) sat gray)
          (desaturate_color (luminance_scaled v lum) sat gray) =
        desaturate_color (luminance_scaled (color_midpoint u v) lum) sat gray := by
    intro u
    induction u with
    | nil => intro v; rfl
    | cons x xs ih =>
      intro v
      cases v with
      | nil => rfl
      | cons y ys =>
        simp only [color_midpoint, desaturate_color, luminance_scaled, List.map_cons,
          List.zipWith_cons_cons]
        congr 1
        · ring
        · exact ih ys
  refine ⟨hmain a b, fun h1 n h2 => ?_⟩
  rw [hmain a b, h2]
  subst h1
  simp only [luminance_scaled, List.map_replicate, desaturate_color]
  congr 1
  ring

/-- Witness for C8: the commutation at `7sineopt.py`'s shipped constants,
and midpoint preservation at multiplier 1 with black/white endpoints
around gray point 0. -/
theorem postprocess_commutes_with_midpoint_witness :
    color_midpoint (desaturate_color (luminance_scaled [-1, -1, 1] (9 / 10)) (9 / 10) (1 / 10))
        (desaturate_color (luminance_scaled [1, 1, -1] (9 / 10)) (9 / 10) (1 / 10)) =
      desaturate_color
        (luminance_scaled (color_midpoint [-1, -1, 1] [1, 1, -1]) (9 / 10)) (9 / 10) (1 / 10) ∧
    color_midpoint (desaturate_color (luminance_scaled [1, 1, 1] 1) (1 / 2) 0)
        (desaturate_color (luminance_scaled [-1, -1, -1] 1) (1 / 2) 0) =
      color_midpoint [1, 1, 1] [-1, -1, -1] := by
  constructor
  · exact (postprocess_commutes_with_midpoint [-1, -1, 1] [1, 1, -1]
      (9 / 10) (9 / 10) (1 / 10)).1
  · apply (postprocess_commutes_with_midpoint [1, 1, 1] [-1, -1, -1] 1 (1 / 2) 0).2 rfl 3
    norm_num [color_midpoint, List.zipWith_cons_cons, List.zipWith_nil_right,
      List.replicate]

/-- C8 (counterexample): with `7sineopt.py`'s shipped configuration
(luminance multiplier 0.9, saturation 0.9, gray point 0.1, blue/yellow
endpoints) the processed endpoints average to `[0.01, 0.01, 0.01]`, not
to the unprocessed midpoint `[0, 0, 0]`. -/
theorem midpoint_preservation_counterexample :
    color_midpoint
        (desaturate_color (luminance_scaled [-1, -1, 1] (9 / 10)) (9 / 10) (1 / 10))
        (desaturate_color (luminance_scaled [1, 1, -1] (9 / 10)) (9 / 10) (1 / 10)) ≠
      color_midpoint [-1, -1, 1] [1, 1, -1] := by
  norm_num [color_midpoint, desaturate_color, luminance_scaled,
    List.zipWith_cons_cons, List.zipWith_nil_right]

/-! Sine-mode resolver: floor arithmetic for the float modulo, and the
vanishing of one full cycle of equally spaced sine samples. -/

theorem floor_natCast_div (n N : ℕ) (hN : 0 < N) :
    ⌊(n : ℚ) / (N : ℚ)⌋ = ((n / N : ℕ) : ℤ) := by
  have hN0 : (0 : ℚ) < (N : ℚ) := by exact_mod_cast hN
  rw [Int.floor_eq_iff]
  constructor
  · rw [le_div_iff₀ hN0]
    exact_mod_cast Nat.div_mul_le_self n N
  · rw [div_lt_iff₀ hN0]
    have hnat : n < (n / N + 1) * N := by
      have hmul : (n / N + 1) * N = N * (n / N) + N := by ring
      have h1 := Nat.div_add_mod n N
      have h2 := Nat.mod_lt n hN
      omega
    exact_mod_cast hnat

theorem pymod_natCast (n N : ℕ) (hN : 0 < N) :
    pymod (n : ℚ) (N : ℚ) = ((n % N : ℕ) : ℚ) := by
  rw [pymod, floor_natCast_div n N hN]
  have h1 : N * (n / N) ≤ n := by
    have := Nat.div_add_mod n N
    omega
  have h2 : n % N = n - N * (n / N) := by
    have := Nat.div_add_mod n N
    omega
  rw [h2, Nat.cast_sub h1, Int.cast_natCast, Nat.cast_mul]

theorem sum_sin_range (N : ℕ) :
    ∑ n ∈ Finset.range N, Real.sin (2 * Real.pi * n / N) = 0 := by
  rcases Nat.eq_zero_or_pos N with h0 | hN
  · subst h0
    simp
  · have hN0 : (N : ℝ) ≠ 0 := by positivity
    have hrefl := Finset.sum_range_reflect (fun j : ℕ => Real.sin (2 * Real.pi * j / N)) N
    have hneg : ∀ j ∈ Finset.range N,
        Real.sin (2 * Real.pi * ((N - 1 - j : ℕ) : ℝ) / N) =
          -Real.sin (2 * Real.pi * ((j + 1 : ℕ) : ℝ) / N) := by
      intro j hj
      have hjN : j < N := Finset.mem_range.mp hj
      have hcast : ((N - 1 - j : ℕ) : ℝ) = (N : ℝ) - ((j + 1 : ℕ) : ℝ) := by
        have hsub : N - 1 - j = N - (j + 1) := by omega
        rw [hsub, Nat.cast_sub (by omega)]
      rw [hcast]
      have harg : 2 * Real.pi * ((N : ℝ) - ((j + 1 : ℕ) : ℝ)) / N =
          2 * Real.pi - 2 * Real.pi * ((j + 1 : ℕ) : ℝ) / N := by
        field_simp
        ring
      rw [harg, Real.sin_sub, Real.sin_two_pi, Real.cos_two_pi]
      ring
    rw [Finset.sum_congr rfl hneg] at hrefl
    have hshift : ∑ j ∈ Finset.range N, Real.sin (2 * Real.pi * ((j + 1 : ℕ) : ℝ) / N) =
        ∑ n ∈ Finset.range N, Real.sin (2 * Real.pi * n / N) := by
      have hsucc' := Finset.sum_range_succ' (fun j : ℕ => Real.sin (2 * Real.pi * j / N)) N
      have hsucc := Finset.sum_range_succ (fun j : ℕ => Real.sin (2 * Real.pi * j / N)) N
      have hfN : Real.sin (2 * Real.pi * ((N : ℕ) : ℝ) / N) = 0 := by
        rw [mul_div_assoc, div_self hN0, mul_one, Real.sin_two_pi]
      have hf0 : Real.sin (2 * Real.pi * ((0 : ℕ) : ℝ) / N) = 0 := by
        norm_num
      simp only [] at hsucc' hsucc
      rw [hsucc'] at hsucc
      rw [hfN, hf0] at hsucc
      linarith
    rw [Finset.sum_neg_distrib, hshift] at hrefl
    linarith

/-- C10: in SINE mode, at every frame number that is a whole multiple of
`frames_per_cycle` (including frame 0) the resolver returns exactly the
per-channel midpoint of the two endpoint colors, and in particular not
the endpoint `color_a` wherever the endpoints differ. -/
theorem sine_starts_at_midpoint (r f : ℚ)
    (hfpc : (AdaptiveFlickerPattern.make r f).frames_per_cycle ≠ 0)
    (m n : ℕ) (hn : (n : ℚ) = (m : ℚ) * (AdaptiveFlickerPattern.make r f).frames_per_cycle)
    (a b : Fin 3 → ℝ) (i : Fin 3) :
    (AdaptiveFlickerPattern.make r f).get_color_sine n a b i = (a i + b i) / 2 ∧
    (a i ≠ b i → (AdaptiveFlickerPattern.make r f).get_color_sine n a b i ≠ a i) := by
  have hmod : pymod (n : ℚ) (AdaptiveFlickerPattern.make r f).frames_per_cycle = 0 := by
    rw [pymod, hn, mul_div_cancel_right₀ _ hfpc, Int.floor_natCast]
    push_cast
    ring
  have hsv : (AdaptiveFlickerPattern.make r f).get_sine_value n = 0 := by
    simp only [AdaptiveFlickerPattern.get_sine_value, hmod, zero_div]
    norm_num
  have hval : (AdaptiveFlickerPattern.make r f).get_color_sine n a b i = (a i + b i) / 2 := by
    simp only [AdaptiveFlickerPattern.get_color_sine, blend_colors, hsv]
    ring
  refine ⟨hval, fun hab hcontra => ?_⟩
  rw [hval] at hcontra
  apply hab
  linarith

/-- Witness for C10 at refresh 480 Hz, target 60 Hz (8 frames per cycle),
frame 0, endpoints 1 and 0: the resolver returns the midpoint 1/2. -/
theorem sine_starts_at_midpoint_witness :
    (AdaptiveFlickerPattern.make 480 60).get_color_sine 0
      (fun _ => (1 : ℝ)) (fun _ => (0 : ℝ)) 0 = 1 / 2 := by
  have h := sine_starts_at_midpoint 480 60
    (by rw [make_frames_per_cycle]; norm_num) 0 0 (by norm_num)
    (fun _ => (1 : ℝ)) (fun _ => (0 : ℝ)) 0
  rw [h.1]
  norm_num

/-- C6: for SINE mode with an integer number `N` of frames per cycle, the
resolver computes the claimed per-channel blend with blend factor
`(sin(2 pi (n mod N) / N) + 1) / 2`, and its per-channel average over one
full cycle of `N` consecutive frames is exactly the midpoint of the two
endpoint colors. -/
theorem sine_mode_midpoint_average (r f : ℚ) (N : ℕ) (hN : 1 ≤ N)
    (hfpc : r / f = (N : ℚ)) :
    (∀ (n : ℕ) (a b : Fin 3 → ℝ) (i : Fin 3),
      (AdaptiveFlickerPattern.make r f).get_color_sine n a b i =
        b i * (1 - (Real.sin (2 * Real.pi * (((n % N : ℕ) : ℝ) / (N : ℝ))) + 1) / 2) +
          a i * ((Real.sin (2 * Real.pi * (((n % N : ℕ) : ℝ) / (N : ℝ))) + 1) / 2)) ∧
    (∀ (a b : Fin 3 → ℝ) (i : Fin 3),
      (∑ n ∈ Finset.range N, (AdaptiveFlickerPattern.make r f).get_color_sine n a b i) /
          (N : ℝ) = (a i + b i) / 2) := by
  have hN0 : 0 < N := hN
  have hNR : ((N : ℕ) : ℝ) ≠ 0 := by positivity
  have hsine : ∀ n : ℕ, (AdaptiveFlickerPattern.make r f).get_sine_value n =
      Real.sin (2 * Real.pi * (((n % N : ℕ) : ℝ) / (N : ℝ))) := by
    intro n
    simp only [AdaptiveFlickerPattern.get_sine_value, make_frames_per_cycle, hfpc]
    rw [pymod_natCast n N hN0]
    congr 1
    push_cast
    ring
  have hres : ∀ (n : ℕ) (a b : Fin 3 → ℝ) (i : Fin 3),
      (AdaptiveFlickerPattern.make r f).get_color_sine n a b i =
        b i * (1 - (Real.sin (2 * Real.pi * (((n % N : ℕ) : ℝ) / (N : ℝ))) + 1) / 2) +
          a i * ((Real.sin (2 * Real.pi * (((n % N : ℕ) : ℝ) / (N : ℝ))) + 1) / 2) := by
    intro n a b i
    simp only [AdaptiveFlickerPattern.get_color_sine, blend_colors, hsine n]
  refine ⟨hres, fun a b i => ?_⟩
  have hterm : ∀ n ∈ Finset.range N,
      (AdaptiveFlickerPattern.make r f).get_color_sine n a b i =
        (a i + b i) / 2 + (a i - b i) / 2 * Real.sin (2 * Real.pi * ((n : ℝ) / N)) := by
    intro n hn
    rw [hres n a b i, Nat.mod_eq_of_lt (Finset.mem_range.mp hn)]
    ring
  rw [Finset.sum_congr rfl hterm, Finset.sum_add_distrib, Finset.sum_const,
    Finset.card_range, ← Finset.mul_sum]
  have hsin' : ∑ n ∈ Finset.range N, Real.sin (2 * Real.pi * ((n : ℝ) / N)) = 0 := by
    have hc : ∀ n ∈ Finset.range N,
        Real.sin (2 * Real.pi * ((n : ℝ) / N)) = Real.sin (2 * Real.pi * (n : ℝ) / N) := by
      intro n _
      rw [mul_div_assoc]
    rw [Finset.sum_congr rfl hc]
    exact sum_sin_range N
  rw [hsin', mul_zero, add_zero, nsmul_eq_mul, mul_div_cancel_left₀ _ hNR]

/-- Witness for C6 at refresh 480 Hz, target 60 Hz (`N = 8`), endpoints 1
and 0 on channel 0: the one-cycle average is the midpoint 1/2. -/
theorem sine_mode_midpoint_average_witness :
    (∑ n ∈ Finset.range 8, (AdaptiveFlickerPattern.make 480 60).get_color_sine n
        (fun _ => (1 : ℝ)) (fun _ => (0 : ℝ)) 0) / ((8 : ℕ) : ℝ) = 1 / 2 := by
  have h := (sine_mode_midpoint_average 480 60 8 (by norm_num) (by norm_num)).2
    (fun _ => (1 : ℝ)) (fun _ => (0 : ℝ)) 0
  rw [h]
  norm_num
